import Mathlib

/-!
Shallow embedding of the ink-id volumetric sampling code
(`src/inkid/data/Volume.py`, `src/trainvol.py`, `src/features.py`)
and verification of the specification's claims about it.

Arrays are modelled as total functions over natural-number indices
together with explicit shape data; intensities, coordinates and
statistics are rationals; NumPy operations that can raise (empty
reductions, scalar out-of-range indexing) or produce NaN return
`Option` values, with `none` standing for the raise / NaN.
-/

namespace InkId

/-! ## NumPy / Python indexing primitives -/

/-- Resolution of one endpoint of a NumPy basic slice over an axis of
length `n`: a negative endpoint has `n` added to it, and the result is
clamped into `[0, n]`. -/
def npResolve (n : ℕ) (i : ℤ) : ℕ :=
  (min (n : ℤ) (max 0 (if i < 0 then (n : ℤ) + i else i))).toNat

/-- Length of the NumPy slice `a[lo:hi]` over an axis of length `n`. -/
def npSliceLen (n : ℕ) (lo hi : ℤ) : ℕ :=
  npResolve n hi - npResolve n lo

/-- The list of source indices selected by the NumPy slice `a[lo:hi]`
over an axis of length `n`. -/
def npSliceIdx (n : ℕ) (lo hi : ℤ) : List ℕ :=
  (List.range (npSliceLen n lo hi)).map (fun k => npResolve n lo + k)

/-- NumPy scalar integer indexing on an axis of length `n`: indices in
`[0, n)` are taken as-is, indices in `[-n, 0)` wrap to `n + i`, and
everything else raises `IndexError` (modelled as `none`). -/
def npIndex (n : ℕ) (i : ℤ) : Option ℕ :=
  if 0 ≤ i ∧ i < (n : ℤ) then some i.toNat
  else if -(n : ℤ) ≤ i ∧ i < 0 then some ((n : ℤ) + i).toNat
  else none

/-- Python `int()` applied to a rational: truncation toward zero
(floor for non-negative arguments, ceiling for negative ones). -/
def pyInt (q : ℚ) : ℤ := if 0 ≤ q then ⌊q⌋ else ⌈q⌉

/-- NumPy `np.max` of a 1-D array: `none` on an empty array (NumPy
raises on an empty reduction without identity); otherwise the `max`
fold over the entries. -/
def npMax1 (l : List ℚ) : Option ℚ := l.max?

/-- NumPy `np.min` of a 1-D array: `none` on an empty array. -/
def npMin1 (l : List ℚ) : Option ℚ := l.min?

/-- NumPy `np.mean`: `none` (NaN) on an empty array. -/
def npMean (l : List ℚ) : Option ℚ :=
  if l.length = 0 then none else some (l.sum / (l.length : ℚ))

/-! ## `inkid/data/Volume.py`: the `Volume` class

The loaded slice stack `self._data`, indexed `[z, y, x]`, is modelled
by its shape `(nz, ny, nx)` and a total function giving the intensity
at each in-bounds index triple. -/

structure Volume where
  nz : ℕ
  ny : ℕ
  nx : ℕ
  data : ℕ → ℕ → ℕ → ℚ

/-- The method `Volume.intensity_at(x, y, z)`:
`return self._data[int(z), int(y), int(x)]`, with NumPy scalar-index
semantics on each axis (`none` = `IndexError`). -/
def Volume.intensity_at (v : Volume) (x y z : ℚ) : Option ℚ := do
  let zi ← npIndex v.nz (pyInt z)
  let yi ← npIndex v.ny (pyInt y)
  let xi ← npIndex v.nx (pyInt x)
  pure (v.data zi yi xi)

/-- The method `Volume.interpolate_at(x, y, z)`, translated line by
line.  `math.modf` splits each coordinate into fractional part and
integer part (for the non-negative coordinates relevant here, integer
part = floor = `pyInt`).  Note the source computes
`c10 = intensity_at(x0, y1, z0) * (1 - dx) + intensity_at(x1, y0, z0) * dx`,
reusing the corner `(x1, y0, z0)` rather than `(x1, y1, z0)`. -/
def Volume.interpolate_at (v : Volume) (x y z : ℚ) : Option ℚ := do
  let dx : ℚ := x - (pyInt x : ℚ)
  let x0 : ℚ := (pyInt x : ℚ)
  let dy : ℚ := y - (pyInt y : ℚ)
  let y0 : ℚ := (pyInt y : ℚ)
  let dz : ℚ := z - (pyInt z : ℚ)
  let z0 : ℚ := (pyInt z : ℚ)
  let x1 : ℚ := x0 + 1
  let y1 : ℚ := y0 + 1
  let z1 : ℚ := z0 + 1
  let a000 ← v.intensity_at x0 y0 z0
  let a100 ← v.intensity_at x1 y0 z0
  let a010 ← v.intensity_at x0 y1 z0
  let a001 ← v.intensity_at x0 y0 z1
  let a101 ← v.intensity_at x1 y0 z1
  let a011 ← v.intensity_at x0 y1 z1
  let a111 ← v.intensity_at x1 y1 z1
  let c00 := a000 * (1 - dx) + a100 * dx
  let c10 := a010 * (1 - dx) + a100 * dx
  let c01 := a001 * (1 - dx) + a101 * dx
  let c11 := a011 * (1 - dx) + a111 * dx
  let c0 := c00 * (1 - dy) + c10 * dy
  let c1 := c01 * (1 - dy) + c11 * dy
  pure (c0 * (1 - dz) + c1 * dz)

/-- Modelled from the spec: standard trilinear interpolation over the
8 integer-lattice corners ("blend the 8 corner intensities using the
three fractional weights, first along x, then y, then z"), for
comparison with `Volume.interpolate_at`.  The only difference is that
`c10` blends the corner `(x1, y1, z0)`. -/
def trilinearRef (v : Volume) (x y z : ℚ) : Option ℚ := do
  let dx : ℚ := x - (pyInt x : ℚ)
  let x0 : ℚ := (pyInt x : ℚ)
  let dy : ℚ := y - (pyInt y : ℚ)
  let y0 : ℚ := (pyInt y : ℚ)
  let dz : ℚ := z - (pyInt z : ℚ)
  let z0 : ℚ := (pyInt z : ℚ)
  let x1 : ℚ := x0 + 1
  let y1 : ℚ := y0 + 1
  let z1 : ℚ := z0 + 1
  let a000 ← v.intensity_at x0 y0 z0
  let a100 ← v.intensity_at x1 y0 z0
  let a010 ← v.intensity_at x0 y1 z0
  let a110 ← v.intensity_at x1 y1 z0
  let a001 ← v.intensity_at x0 y0 z1
  let a101 ← v.intensity_at x1 y0 z1
  let a011 ← v.intensity_at x0 y1 z1
  let a111 ← v.intensity_at x1 y1 z1
  let c00 := a000 * (1 - dx) + a100 * dx
  let c10 := a010 * (1 - dx) + a110 * dx
  let c01 := a001 * (1 - dx) + a101 * dx
  let c11 := a011 * (1 - dx) + a111 * dx
  let c0 := c00 * (1 - dy) + c10 * dy
  let c1 := c01 * (1 - dy) + c11 * dy
  pure (c0 * (1 - dz) + c1 * dz)

/-- Result of `Volume.get_subvolume`: a 3-D block, kept as an explicit
shape together with a total entry function (entries outside the shape
are irrelevant). -/
structure Subvolume where
  shape : ℕ × ℕ × ℕ
  val : ℕ → ℕ → ℕ → ℚ

/-- The method `Volume.get_subvolume(center_xyz, shape_zyx, x_vec,
y_vec, z_vec)` as implemented (the `### Testing axis-aligned ###`
block): it truncates the center with `int`, slices
`self._data[z-48:z+48, y-48:y+48, x-24:x+24]`, and replaces the result
with `np.zeros((96, 96, 48))` whenever that slice's shape differs from
`(96, 96, 48)`.  The arguments `shape_zyx`, `x_vec`, `y_vec`, `z_vec`
are accepted (the source asserts their lengths) but never used. -/
def Volume.get_subvolume (v : Volume) (center_xyz : ℚ × ℚ × ℚ)
    (shape_zyx : ℕ × ℕ × ℕ)
    (x_vec y_vec z_vec : ℚ × ℚ × ℚ) : Subvolume :=
  if npSliceLen v.nz (pyInt center_xyz.2.2 - 48) (pyInt center_xyz.2.2 + 48) = 96 ∧
      npSliceLen v.ny (pyInt center_xyz.2.1 - 48) (pyInt center_xyz.2.1 + 48) = 96 ∧
      npSliceLen v.nx (pyInt center_xyz.1 - 24) (pyInt center_xyz.1 + 24) = 48 then
    { shape := (96, 96, 48)
      val := fun k j i =>
        v.data (npResolve v.nz (pyInt center_xyz.2.2 - 48) + k)
          (npResolve v.ny (pyInt center_xyz.2.1 - 48) + j)
          (npResolve v.nx (pyInt center_xyz.1 - 24) + i) }
  else
    { shape := (96, 96, 48), val := fun _ _ _ => 0 }

/-! ## `trainvol.py`: the `TrainVol` class

The loaded arrays are modelled as total functions with explicit shape:
`raw_volume` / `flt_volume` has shape `(rows, cols, depth)` (indexed
`[row, col, depth]`); `ground_truth` and the surface maps have shape
`(rows, cols)`. -/

/-- Step 1 of the ground-truth adjustment in `TrainVol.__init__`:
`self.raw_ground_truth = np.where(self.raw_ground_truth > 0, 1, 0)`. -/
def binarize (raw : ℕ → ℕ → ℚ) : ℕ → ℕ → ℚ :=
  fun i j => if 0 < raw i j then 1 else 0

/-- The index pairs of the half-open NumPy block
`a[i-NR:i+NR, j-NR:j+NR]` for `i, j ≥ NR` (all indices in bounds in
the source's loop, so no clamping occurs). -/
def blockIdx (NR i j : ℕ) : List (ℕ × ℕ) :=
  ((List.range (2 * NR)).map (fun a => i - NR + a)).flatMap
    (fun a => ((List.range (2 * NR)).map (fun b => j - NR + b)).map (fun b => (a, b)))

/-- The adjusted ground truth built by the double loop in
`TrainVol.__init__`: the array starts as zeros; for `i` in
`range(NR, rows-NR)` and `j` in `range(NR, cols-NR)` the entry is set
to `0.99` exactly when `np.mean(raw_ground_truth[i-NR:i+NR, j-NR:j+NR])`
equals 1 (a NaN mean, from an empty block, compares unequal to 1). -/
def ground_truth_adjusted (raw : ℕ → ℕ → ℚ) (rows cols NR : ℕ) : ℕ → ℕ → ℚ :=
  fun i j =>
    if NR ≤ i ∧ i < rows - NR ∧ NR ≤ j ∧ j < cols - NR then
      match npMean ((blockIdx NR i j).map (fun p => binarize raw p.1 p.2)) with
      | some m => if m = 1 then 99 / 100 else 0
      | none => 0
    else 0

/-- The depth profile `raw_volume[i, j]` as a list. -/
def profile (vol : ℕ → ℕ → ℕ → ℚ) (depth i j : ℕ) : List ℚ :=
  (List.range depth).map (vol i j)

/-- The index pairs of the closed NumPy block
`maxes[i-n:i+n+1, j-n:j+n+1]` for `i, j ≥ n` (in bounds in the
source's loop). -/
def closedBlockIdx (n i j : ℕ) : List (ℕ × ℕ) :=
  ((List.range (2 * n + 1)).map (fun a => i - n + a)).flatMap
    (fun a => ((List.range (2 * n + 1)).map (fun b => j - n + b)).map (fun b => (a, b)))

/-- Collect a list of optional values, failing if any is missing. -/
def optSeq : List (Option ℚ) → Option (List ℚ)
  | [] => some []
  | o :: t => do pure ((← o) :: (← optSeq t))

/-- `np.min(maxes[i-n:i+n+1, j-n:j+n+1])` in
`TrainVol.find_frag_surf_at_thresh`, where
`maxes = np.max(self.raw_volume, axis=2)`; `none` if any depth profile
is empty (NumPy would have raised computing `maxes`). -/
def neighMin (vol : ℕ → ℕ → ℕ → ℚ) (depth n i j : ℕ) : Option ℚ := do
  let ms ← optSeq ((closedBlockIdx n i j).map
    (fun p => npMax1 (profile vol depth p.1 p.2)))
  npMin1 ms

/-- The loop range of `TrainVol.find_frag_surf_at_thresh`:
`i in range(n, rows-n-1)` and `j in range(n, cols-n-1)` (note the
extra `-1`: the last row and column with a full `n`-margin are never
visited). -/
def inSurfLoop (rows cols n i j : ℕ) : Prop :=
  n ≤ i ∧ i < rows - n - 1 ∧ n ≤ j ∧ j < cols - n - 1

instance (rows cols n i j : ℕ) : Decidable (inSurfLoop rows cols n i j) := by
  unfold inSurfLoop; infer_instance

/-- The guard of the body of `TrainVol.find_frag_surf_at_thresh`:
`np.min(maxes[i-n:i+n+1, j-n:j+n+1]) > thresh`. -/
def fragCond (vol : ℕ → ℕ → ℕ → ℚ) (depth n : ℕ) (thresh : ℚ) (i j : ℕ) : Prop :=
  ∃ m, neighMin vol depth n i j = some m ∧ thresh < m

instance (vol : ℕ → ℕ → ℕ → ℚ) (depth n : ℕ) (thresh : ℚ) (i j : ℕ) :
    Decidable (fragCond vol depth n thresh i j) := by
  unfold fragCond
  rcases h : neighMin vol depth n i j with _ | m
  · exact .isFalse (by simp [h])
  · exact decidable_of_iff (thresh < m) (by simp [h])

/-- The `frag_mask` array produced by
`TrainVol.find_frag_surf_at_thresh`: zero-initialized, set to 1 at the
loop points where the neighborhood-minimum guard holds. -/
def frag_mask (vol : ℕ → ℕ → ℕ → ℚ) (rows cols depth n : ℕ) (thresh : ℚ) :
    ℕ → ℕ → ℕ :=
  fun i j =>
    if inSurfLoop rows cols n i j ∧ fragCond vol depth n thresh i j then 1 else 0

/-- The first-crossing lookup `np.where(vector > thresh)[0][0]` for
the depth profile at `(i, j)`; `none` models the `IndexError` NumPy
raises when no entry exceeds the threshold. -/
def firstCrossing (vol : ℕ → ℕ → ℕ → ℚ) (depth : ℕ) (thresh : ℚ) (i j : ℕ) :
    Option ℕ :=
  (profile vol depth i j).findIdx? (fun a => decide (thresh < a))

/-- The `surf_pts` array produced by
`TrainVol.find_frag_surf_at_thresh`: zero-initialized, set to the
first-crossing depth index at the loop points where the guard holds. -/
def surf_pts (vol : ℕ → ℕ → ℕ → ℚ) (rows cols depth n : ℕ) (thresh : ℚ) :
    ℕ → ℕ → ℕ :=
  fun i j =>
    if inSurfLoop rows cols n i j ∧ fragCond vol depth n thresh i j then
      (firstCrossing vol depth thresh i j).getD 0
    else 0

/-- The state of a `TrainVol` object as used by `next_batch`. -/
structure TrainVol where
  rows : ℕ
  cols : ℕ
  depth : ℕ
  NR : ℕ
  C_IN : ℕ
  C_BACK : ℕ
  flt_volume : ℕ → ℕ → ℕ → ℚ
  ground_truth : ℕ → ℕ → ℚ
  surfMap : ℕ → ℕ → ℕ
  train_inds : List ℕ
  current_spot : ℕ

/-- `TrainVol.total_vects = raw_volume.shape[0] * raw_volume.shape[1]`. -/
def TrainVol.total_vects (tv : TrainVol) : ℕ := tv.rows * tv.cols

/-- `TrainVol.ind_to_coord`: `col = ind % width`, `row = int(ind / width)`
with `width = raw_volume.shape[1]`. -/
def TrainVol.ind_to_coord (tv : TrainVol) (ind : ℕ) : ℕ × ℕ :=
  (ind / tv.cols, ind % tv.cols)

/-- Source row indices of the crop
`flt_volume[row, col-NR:col+NR, surf-BK:surf+IN]` along its first
axis. -/
def TrainVol.cropRowIdx (tv : TrainVol) (col : ℕ) : List ℕ :=
  npSliceIdx tv.cols ((col : ℤ) - tv.NR) ((col : ℤ) + tv.NR)

/-- Source depth indices of the crop along its second axis. -/
def TrainVol.cropColIdx (tv : TrainVol) (surf : ℕ) : List ℕ :=
  npSliceIdx tv.depth ((surf : ℤ) - tv.C_BACK) ((surf : ℤ) + tv.C_IN)

/-- The shape test `to_put.shape == to_return_x[c].shape` in
`next_batch`, where `to_return_x[c]` has shape
`(2*NR, C_IN + C_BACK)`. -/
def TrainVol.shapeMatch (tv : TrainVol) (ind : ℕ) : Prop :=
  (tv.cropRowIdx (tv.ind_to_coord ind).2).length = 2 * tv.NR ∧
    (tv.cropColIdx (tv.surfMap (tv.ind_to_coord ind).1 (tv.ind_to_coord ind).2)).length
      = tv.C_IN + tv.C_BACK

instance (tv : TrainVol) (ind : ℕ) : Decidable (tv.shapeMatch ind) := by
  unfold TrainVol.shapeMatch; infer_instance

/-- The wrap test at the top of `next_batch`:
`self.current_spot + batch_size > self.total_vects` (note: compared
against `total_vects`, not against `len(self.train_inds)`). -/
def TrainVol.wraps (tv : TrainVol) (batch_size : ℕ) : Prop :=
  tv.total_vects < tv.current_spot + batch_size

instance (tv : TrainVol) (batch_size : ℕ) : Decidable (tv.wraps batch_size) := by
  unfold TrainVol.wraps; infer_instance

/-- The indices drawn by `next_batch`: after the possible wrap (cursor
reset to 0 and pool reshuffled to `shuffled`), the slice
`train_inds[start:start+batch_size]` (a Python slice, silently short
or empty past the end of the pool). -/
def TrainVol.drawnInds (tv : TrainVol) (batch_size : ℕ) (shuffled : List ℕ) :
    List ℕ :=
  (((if tv.wraps batch_size then shuffled else tv.train_inds).drop
    (if tv.wraps batch_size then 0 else tv.current_spot)).take batch_size)

/-- Label row `c` of the batch (`to_return_y[c]`): pre-zeroed `(0, 0)`,
overwritten with `(g, 1 - g)` (for `g = ground_truth[row, col]`)
exactly when row `c` has a drawn index whose crop shape matches. -/
def TrainVol.batchY (tv : TrainVol) (inds : List ℕ) (c : ℕ) : ℚ × ℚ :=
  match inds[c]? with
  | none => (0, 0)
  | some ind =>
    if tv.shapeMatch ind then
      (tv.ground_truth (tv.ind_to_coord ind).1 (tv.ind_to_coord ind).2,
        1 - tv.ground_truth (tv.ind_to_coord ind).1 (tv.ind_to_coord ind).2)
    else (0, 0)

/-- Input row `c` of the batch (`to_return_x[c]`): pre-zeroed,
overwritten with the crop (vertically flipped when the per-row random
draw `flip c` is true, from `np.flipud`) exactly when row `c` has a
drawn index whose crop shape matches. -/
def TrainVol.batchX (tv : TrainVol) (inds : List ℕ) (flip : ℕ → Bool)
    (c j k : ℕ) : ℚ :=
  match inds[c]? with
  | none => 0
  | some ind =>
    if tv.shapeMatch ind then
      let row := (tv.ind_to_coord ind).1
      let col := (tv.ind_to_coord ind).2
      let j' := if flip c then 2 * tv.NR - 1 - j else j
      tv.flt_volume row ((tv.cropRowIdx col).getD j' 0)
        ((tv.cropColIdx (tv.surfMap row col)).getD k 0)
    else 0

/-- Result of one `next_batch` call: the updated cursor and pool plus
the two batch arrays. -/
structure BatchResult where
  newSpot : ℕ
  pool : List ℕ
  wrapped : Bool
  x : ℕ → ℕ → ℕ → ℚ
  y : ℕ → ℚ × ℚ

/-- The method `TrainVol.next_batch(batch_size)`.  `shuffled` stands
for the result of the in-place `np.random.shuffle(self.train_inds)`
performed on wrap, and `flip` for the per-row `np.random.randint(10) % 2`
flip draws.  The call raises (`none`) exactly when some drawn index
addresses a row at or beyond `flt_volume.shape[0]` (the scalar `row`
index of `self.flt_volume[row, ...]` is then out of range; the slice
indices never raise). -/
def TrainVol.next_batch (tv : TrainVol) (batch_size : ℕ) (shuffled : List ℕ)
    (flip : ℕ → Bool) : Option BatchResult :=
  if (tv.drawnInds batch_size shuffled).all
      (fun ind => decide (ind / tv.cols < tv.rows)) then
    some
      { newSpot := (if tv.wraps batch_size then 0 else tv.current_spot) + batch_size
        pool := if tv.wraps batch_size then shuffled else tv.train_inds
        wrapped := decide (tv.wraps batch_size)
        x := tv.batchX (tv.drawnInds batch_size shuffled) flip
        y := tv.batchY (tv.drawnInds batch_size shuffled) }
  else none

/-! ## `features.py`: `extract_for_vol`

The cache lookup at the top of the function is file I/O (external
collaborator) and is not modelled; the model covers the computation on
a cache miss.  The volume argument has shape `(rows, cols, depth)`. -/

/-- The clamped window start in `extract_for_vol`:
`srf = surf_pts[i,j] - CUT_BACK; if srf < 0: srf = 0` (truncated
subtraction on ℕ is exactly this clamp). -/
def windowStart (surf CUT_BACK : ℕ) : ℕ := surf - CUT_BACK

/-- The depth window `volume[i,j][srf:cut]` with `cut = srf + CUT_IN`
(`tmp_vect` in the source).  A window whose end exceeds the array
bound is silently short; it is empty when `srf ≥ depth` or
`CUT_IN = 0`. -/
def windowAt (vol : ℕ → ℕ → ℕ → ℚ) (depth : ℕ) (surf_pts : ℕ → ℕ → ℕ)
    (CUT_BACK CUT_IN i j : ℕ) : List ℚ :=
  ((profile vol depth i j).drop (windowStart (surf_pts i j) CUT_BACK)).take CUT_IN

/-- `np.count_nonzero(np.where(tmp_vect > THRESH, tmp_vect, 0))`: the
number of window entries that are kept by the `where` (those exceeding
the threshold) and are nonzero. -/
def depthCount (thresh : ℚ) (l : List ℚ) : ℕ :=
  ((l.map (fun a => if thresh < a then a else 0)).filter (fun a => a ≠ 0)).length

/-- `np.std(tmp_vect)` squared, i.e. the population variance
`np.mean((tmp_vect - np.mean(tmp_vect))**2)`; `none` (NaN) on an empty
window.  `np.std` is the (generally irrational) square root of this
value; the model carries the variance instead, which is zero, NaN or
finite exactly when the standard deviation is. -/
def npVar (l : List ℚ) : Option ℚ := do
  let m ← npMean l
  npMean (l.map (fun a => (a - m) * (a - m)))

/-- The six per-point statistic maps of the first loop of
`extract_for_vol`, in the order they are appended to `features`
(`sum`, `depth`, `avg`, `min`, `max`, `std`, the last represented by
its square, see `npVar`).  The whole phase is `none` when any window
is empty: `np.min` / `np.max` then raise, and the NaN mean would make
`preprocessing.normalize(avg_vals)` raise, since `avg_vals` is the one
channel not passed through `np.nan_to_num`. -/
def extractSingle (vol : ℕ → ℕ → ℕ → ℚ) (rows cols depth : ℕ)
    (surf_pts : ℕ → ℕ → ℕ) (CUT_IN CUT_BACK : ℕ) (thresh : ℚ) :
    Option (List (List (List ℚ))) :=
  if ∀ i ∈ List.range rows, ∀ j ∈ List.range cols,
      windowAt vol depth surf_pts CUT_BACK CUT_IN i j ≠ [] then
    let w := fun i j => windowAt vol depth surf_pts CUT_BACK CUT_IN i j
    let mk := fun (f : ℕ → ℕ → ℚ) =>
      (List.range rows).map (fun i => (List.range cols).map (fun j => f i j))
    some
      [mk (fun i j => (w i j).sum),
        mk (fun i j => (depthCount thresh (w i j) : ℚ)),
        mk (fun i j => (npMean (w i j)).getD 0),
        mk (fun i j => (npMin1 (w i j)).getD 0),
        mk (fun i j => (npMax1 (w i j)).getD 0),
        mk (fun i j => (npVar (w i j)).getD 0)]
  else none

/-- The flattened neighborhood block
`volume[i-NR:i+NR+1, j-NR:j+NR+1, srf:cut].flatten()` of the second
loop of `extract_for_vol` (all spatial indices in bounds in that
loop). -/
def neighBlock (vol : ℕ → ℕ → ℕ → ℚ) (depth : ℕ) (surf_pts : ℕ → ℕ → ℕ)
    (CUT_BACK CUT_IN NR i j : ℕ) : List ℚ :=
  (closedBlockIdx NR i j).flatMap (fun p =>
    ((profile vol depth p.1 p.2).drop (windowStart (surf_pts i j) CUT_BACK)).take CUT_IN)

/-- The four neighborhood statistic maps of the second loop of
`extract_for_vol`, in append order (`mean`, `sum`, `std` as its
square, and the below-threshold count
`np.count_nonzero(np.where(neigh_vects < THRESH, neigh_vects, 0))`).
Zero outside the loop range `range(NR, rows-NR) × range(NR, cols-NR)`;
NaN means of empty blocks are coerced by the `np.nan_to_num` these
four channels all pass through, which the `getD 0` folds in. -/
def extractNeigh (vol : ℕ → ℕ → ℕ → ℚ) (rows cols depth : ℕ)
    (surf_pts : ℕ → ℕ → ℕ) (CUT_IN CUT_BACK NR : ℕ) (thresh : ℚ) :
    List (List (List ℚ)) :=
  let b := fun i j => neighBlock vol depth surf_pts CUT_BACK CUT_IN NR i j
  let inLoop := fun i j => NR ≤ i ∧ i < rows - NR ∧ NR ≤ j ∧ j < cols - NR
  let mk := fun (f : ℕ → ℕ → ℚ) =>
    (List.range rows).map (fun i => (List.range cols).map (fun j =>
      if inLoop i j then f i j else 0))
  [mk (fun i j => (npMean (b i j)).getD 0),
    mk (fun i j => (b i j).sum),
    mk (fun i j => (npVar (b i j)).getD 0),
    mk (fun i j =>
      (((b i j).map (fun a => if a < thresh then a else 0)).filter
        (fun a => a ≠ 0)).length)]

/-! ### `sklearn.preprocessing.normalize`

`preprocessing.normalize(X)` with the default `norm='l2', axis=1`
divides every row of the 2-D array `X` by its Euclidean norm, leaving
all-zero rows unchanged.  The scaling factor `1/‖row‖₂` is irrational
in general, so the operation is modelled relationally: `c` below
stands for `1/‖r‖₂`, characterized by `c > 0 ∧ c² · Σ r_i² = 1`. -/

/-- Sum of squares of a row. -/
def sumSq (r : List ℚ) : ℚ := (r.map (fun a => a * a)).sum

/-- Sum of squares of every entry of a 2-D array. -/
def totalSumSq (M : List (List ℚ)) : ℚ := (M.map sumSq).sum

/-- Row `r'` is the result of sklearn's L2 row normalization applied
to row `r`. -/
def rowNormRel (r r' : List ℚ) : Prop :=
  (sumSq r = 0 ∧ r' = r) ∨
    (sumSq r ≠ 0 ∧ ∃ c : ℚ, 0 < c ∧ c * c * sumSq r = 1 ∧
      r' = r.map (fun a => a * c))

/-- `M'` is the result of `preprocessing.normalize(M)` (row-wise L2
normalization of the 2-D array `M`). -/
def npNormalizeRel (M M' : List (List ℚ)) : Prop :=
  M'.length = M.length ∧ ∀ p ∈ M.zip M', rowNormRel p.1 p.2

/-- The channel list assembled by `extract_for_vol` on a cache miss,
before the final `np.array` / `swapaxes` restack: the six normalized
single-point maps followed by the four normalized neighborhood maps.
Relational because of the normalization step; there is no `out` with
this property exactly when the computation raises (some depth window
is empty). -/
def ExtractForVolRel (vol : ℕ → ℕ → ℕ → ℚ) (rows cols depth : ℕ)
    (surf_pts : ℕ → ℕ → ℕ) (CUT_IN CUT_BACK NR : ℕ) (thresh : ℚ)
    (out : List (List (List ℚ))) : Prop :=
  ∃ singles, extractSingle vol rows cols depth surf_pts CUT_IN CUT_BACK thresh
      = some singles ∧
    out.length = 10 ∧
    ∀ p ∈ (singles ++ extractNeigh vol rows cols depth surf_pts CUT_IN CUT_BACK
      NR thresh).zip out, npNormalizeRel p.1 p.2

/-! ## Helper lemmas -/

/-- The wrapped index NumPy actually reads for an in-range scalar
index (identity for non-negative indices, `n + i` for negative ones). -/
def wrapIdx (n : ℕ) (i : ℤ) : ℕ :=
  if i < 0 then ((n : ℤ) + i).toNat else i.toNat

lemma npIndex_eq (n : ℕ) (i : ℤ) :
    npIndex n i = if -(n : ℤ) ≤ i ∧ i < (n : ℤ) then some (wrapIdx n i) else none := by
  unfold npIndex wrapIdx
  split_ifs <;> first
    | rfl
    | (exfalso; omega)
    | (simp only [Option.some.injEq]; omega)

lemma npResolve_of_nonneg (n : ℕ) (i : ℤ) (h0 : 0 ≤ i) (hn : i ≤ (n : ℤ)) :
    npResolve n i = i.toNat := by
  unfold npResolve
  split_ifs <;> omega

lemma npSliceLen_window (n : ℕ) (z : ℤ) (w : ℕ) (hz : 0 ≤ z) (hw : 1 ≤ w) :
    npSliceLen n (z - w) (z + w) = 2 * w ↔ (w : ℤ) ≤ z ∧ z + w ≤ (n : ℤ) := by
  unfold npSliceLen npResolve
  split_ifs <;> omega

/-! ## C2: `interpolate_at` vs. standard trilinear interpolation -/

/-- A 2×2×2 volume that is zero except at `(z, y, x) = (0, 1, 1)`:
the corner whose weight the source's `c10` line miscomputes. -/
def bugVol : Volume :=
  ⟨2, 2, 2, fun z y x => if z = 0 ∧ y = 1 ∧ x = 1 then 1 else 0⟩

/-- C2: at `(x, y, z) = (1/2, 1/2, 0)` — all 8 lattice neighbors in
bounds — `interpolate_at` returns 0 while standard trilinear
interpolation of the corner intensities gives 1/4: the source computes
`c10` from the corner `(x1, y0, z0)` instead of `(x1, y1, z0)`,
contradicting its own docstring ("Values are trilinearly
interpolated"). -/
theorem interpolate_at_wrong_corner_eval :
    bugVol.interpolate_at (1 / 2) (1 / 2) 0 = some 0 ∧
      trilinearRef bugVol (1 / 2) (1 / 2) 0 = some (1 / 4) ∧
      bugVol.interpolate_at (1 / 2) (1 / 2) 0 ≠ trilinearRef bugVol (1 / 2) (1 / 2) 0 := by
  have hhalf : pyInt (1 / 2 : ℚ) = 0 := by norm_num [pyInt]
  have hzero : pyInt (0 : ℚ) = 0 := by norm_num [pyInt]
  have hone : pyInt (1 : ℚ) = 1 := by norm_num [pyInt]
  have h1 : bugVol.interpolate_at (1 / 2) (1 / 2) 0 = some 0 := by
    simp only [Volume.interpolate_at, Volume.intensity_at, hhalf, hzero]
    norm_num [pyInt, npIndex, bugVol, Option.bind]
  have h2 : trilinearRef bugVol (1 / 2) (1 / 2) 0 = some (1 / 4) := by
    simp only [trilinearRef, Volume.intensity_at, hhalf, hzero]
    norm_num [pyInt, npIndex, bugVol, Option.bind]
  refine ⟨h1, h2, ?_⟩
  rw [h1, h2]
  intro h
  exact absurd (Option.some.inj h) (by norm_num)

/-! ## C8: `intensity_at` out-of-bounds behavior -/

/-- C8 (amended): `intensity_at` raises an `IndexError` only when some
truncated coordinate falls outside `[-size, size)`; a negative
truncated coordinate in `[-size, -1]` does NOT raise — NumPy wraps it
to `size + i` and the voxel at that other position is returned. -/
theorem intensity_at_numpy_wrapping (v : Volume) (x y z : ℚ) :
    v.intensity_at x y z =
      if -(v.nz : ℤ) ≤ pyInt z ∧ pyInt z < (v.nz : ℤ) ∧
          -(v.ny : ℤ) ≤ pyInt y ∧ pyInt y < (v.ny : ℤ) ∧
          -(v.nx : ℤ) ≤ pyInt x ∧ pyInt x < (v.nx : ℤ) then
        some (v.data (wrapIdx v.nz (pyInt z)) (wrapIdx v.ny (pyInt y))
          (wrapIdx v.nx (pyInt x)))
      else none := by
  unfold Volume.intensity_at
  rw [npIndex_eq, npIndex_eq, npIndex_eq]
  by_cases hz : -(v.nz : ℤ) ≤ pyInt z ∧ pyInt z < (v.nz : ℤ) <;>
    by_cases hy : -(v.ny : ℤ) ≤ pyInt y ∧ pyInt y < (v.ny : ℤ) <;>
      by_cases hx : -(v.nx : ℤ) ≤ pyInt x ∧ pyInt x < (v.nx : ℤ) <;>
        simp [hz, hy, hx]

/-- A 1×1×2 volume whose voxel intensity equals its x index. -/
def wrapVol : Volume := ⟨1, 1, 2, fun _ _ x => (x : ℚ)⟩

/-- C8 counterexample: the coordinate `x = -1` truncates to the index
`-1`, outside the volume bounds `[0, 2)`, yet `intensity_at` does not
fail: it returns the voxel at the different position `x = 1`. -/
theorem intensity_at_wraps_negative_index :
    wrapVol.intensity_at (-1) 0 0 = some (wrapVol.data 0 0 1) ∧
      ¬(0 ≤ pyInt (-1 : ℚ) ∧ pyInt (-1 : ℚ) < (wrapVol.nx : ℤ)) ∧
      wrapVol.data 0 0 1 = 1 ∧ wrapVol.data 0 0 0 = 0 := by
  decide

/-! ## C1: `get_subvolume` with identity axes -/

/-- C1 (amended): `get_subvolume` ignores `shape_zyx` and the axis
vectors.  For a truncated center `(x, y, z)` with non-negative
components it always produces a block of the fixed shape
`(96, 96, 48)`: the axis-aligned crop
`data[z-48:z+48, y-48:y+48, x-24:x+24]` when that crop lies within the
volume bounds, and an all-zero block otherwise. -/
theorem get_subvolume_hardcoded_crop (v : Volume) (c : ℚ × ℚ × ℚ)
    (s : ℕ × ℕ × ℕ) (xv yv zv : ℚ × ℚ × ℚ)
    (hx : 0 ≤ pyInt c.1) (hy : 0 ≤ pyInt c.2.1) (hz : 0 ≤ pyInt c.2.2) :
    (v.get_subvolume c s xv yv zv).shape = (96, 96, 48) ∧
      ((48 ≤ pyInt c.2.2 ∧ pyInt c.2.2 + 48 ≤ (v.nz : ℤ) ∧
          48 ≤ pyInt c.2.1 ∧ pyInt c.2.1 + 48 ≤ (v.ny : ℤ) ∧
          24 ≤ pyInt c.1 ∧ pyInt c.1 + 24 ≤ (v.nx : ℤ)) →
        ∀ k j i, (v.get_subvolume c s xv yv zv).val k j i =
          v.data ((pyInt c.2.2 - 48).toNat + k) ((pyInt c.2.1 - 48).toNat + j)
            ((pyInt c.1 - 24).toNat + i)) ∧
      (¬(48 ≤ pyInt c.2.2 ∧ pyInt c.2.2 + 48 ≤ (v.nz : ℤ) ∧
          48 ≤ pyInt c.2.1 ∧ pyInt c.2.1 + 48 ≤ (v.ny : ℤ) ∧
          24 ≤ pyInt c.1 ∧ pyInt c.1 + 24 ≤ (v.nx : ℤ)) →
        ∀ k j i, (v.get_subvolume c s xv yv zv).val k j i = 0) := by
  have h48z := npSliceLen_window v.nz (pyInt c.2.2) 48 hz (by norm_num)
  have h48y := npSliceLen_window v.ny (pyInt c.2.1) 48 hy (by norm_num)
  have h24x := npSliceLen_window v.nx (pyInt c.1) 24 hx (by norm_num)
  unfold Volume.get_subvolume
  by_cases hfit : npSliceLen v.nz (pyInt c.2.2 - 48) (pyInt c.2.2 + 48) = 96 ∧
      npSliceLen v.ny (pyInt c.2.1 - 48) (pyInt c.2.1 + 48) = 96 ∧
      npSliceLen v.nx (pyInt c.1 - 24) (pyInt c.1 + 24) = 48
  · rw [if_pos hfit]
    refine ⟨rfl, fun hin k j i => ?_, fun hout => ?_⟩
    · obtain ⟨hz1, hz2, hy1, hy2, hx1, hx2⟩ := hin
      show v.data (npResolve v.nz (pyInt c.2.2 - 48) + k)
          (npResolve v.ny (pyInt c.2.1 - 48) + j)
          (npResolve v.nx (pyInt c.1 - 24) + i) = _
      rw [npResolve_of_nonneg v.nz _ (by omega) (by omega),
        npResolve_of_nonneg v.ny _ (by omega) (by omega),
        npResolve_of_nonneg v.nx _ (by omega) (by omega)]
    · exfalso
      exact hout ⟨(h48z.mp hfit.1).1, (h48z.mp hfit.1).2, (h48y.mp hfit.2.1).1,
        (h48y.mp hfit.2.1).2, (h24x.mp hfit.2.2).1, (h24x.mp hfit.2.2).2⟩
  · rw [if_neg hfit]
    refine ⟨rfl, fun hin k j i => ?_, fun _ _ _ _ => rfl⟩
    exact absurd ⟨h48z.mpr ⟨hin.1, hin.2.1⟩, h48y.mpr ⟨hin.2.2.1, hin.2.2.2.1⟩,
      h24x.mpr ⟨hin.2.2.2.2.1, hin.2.2.2.2.2⟩⟩ hfit

/-- A 10×10×10 volume of constant intensity 7. -/
def smallVol : Volume := ⟨10, 10, 10, fun _ _ _ => 7⟩

/-- C1 counterexample: a call with the canonical identity axis vectors
requesting shape `(2, 2, 2)` around center `(5, 5, 5)` — a crop that
fits entirely inside the 10×10×10 volume — returns a `(96, 96, 48)`
all-zero block, not the requested-shape crop (and the zero-fill
triggers even though the requested crop fits). -/
theorem get_subvolume_ignores_requested_shape :
    (smallVol.get_subvolume (5, 5, 5) (2, 2, 2) (1, 0, 0) (0, 1, 0) (0, 0, 1)).shape
        = (96, 96, 48) ∧
      (96, 96, 48) ≠ ((2, 2, 2) : ℕ × ℕ × ℕ) ∧
      (smallVol.get_subvolume (5, 5, 5) (2, 2, 2) (1, 0, 0) (0, 1, 0) (0, 0, 1)).val 0 0 0
        = 0 ∧
      smallVol.data 4 4 4 = 7 := by
  refine ⟨rfl, by decide, ?_, rfl⟩
  decide

/-- Witness volume for the fitting-crop case of C1: 100×100×50. -/
def fitVol : Volume := ⟨100, 100, 50, fun z y x => (z * 10000 + y * 100 + x : ℚ)⟩

/-- Witness for C1's amended theorem: at center `(24, 48, 48)` the
fixed crop fits inside `fitVol` and entry `(3, 4, 5)` of the result is
the source voxel `(3, 4, 5)`. -/
theorem get_subvolume_hardcoded_crop_applied :
    0 ≤ pyInt (24 : ℚ) ∧
      (fitVol.get_subvolume (24, 48, 48) (2, 2, 2) (1, 0, 0) (0, 1, 0) (0, 0, 1)).shape
        = (96, 96, 48) ∧
      (fitVol.get_subvolume (24, 48, 48) (2, 2, 2) (1, 0, 0) (0, 1, 0) (0, 0, 1)).val 3 4 5
        = fitVol.data 3 4 5 := by
  have h := get_subvolume_hardcoded_crop fitVol (24, 48, 48) (2, 2, 2)
    (1, 0, 0) (0, 1, 0) (0, 0, 1) (by decide) (by decide) (by decide)
  refine ⟨by decide, h.1, ?_⟩
  have hv := h.2.1 (by decide) 3 4 5
  rw [hv]
  congr 1 <;> decide

/-! ## C3 / C10: surface detection -/

lemma npMax1_eq_some_iff (l : List ℚ) (a : ℚ) :
    npMax1 l = some a ↔ a ∈ l ∧ ∀ b ∈ l, b ≤ a := by
  haveI : Std.Antisymm (fun (a b : ℚ) => a ≤ b) := ⟨fun h1 h2 => le_antisymm h1 h2⟩
  unfold npMax1
  exact List.max?_eq_some_iff (fun a => le_refl a) (fun a b => max_choice a b)
    (fun a b c => max_le_iff)

lemma npMin1_eq_some_iff (l : List ℚ) (a : ℚ) :
    npMin1 l = some a ↔ a ∈ l ∧ ∀ b ∈ l, a ≤ b := by
  haveI : Std.Antisymm (fun (a b : ℚ) => a ≤ b) := ⟨fun h1 h2 => le_antisymm h1 h2⟩
  unfold npMin1
  exact List.min?_eq_some_iff (fun a => le_refl a) (fun a b => min_choice a b)
    (fun a b c => le_min_iff)

lemma npMax1_isSome (l : List ℚ) (h : l ≠ []) : ∃ a, npMax1 l = some a := by
  rcases l with _ | ⟨x, t⟩
  · exact absurd rfl h
  · exact ⟨t.foldl max x, rfl⟩

lemma npMin1_isSome (l : List ℚ) (h : l ≠ []) : ∃ a, npMin1 l = some a := by
  rcases l with _ | ⟨x, t⟩
  · exact absurd rfl h
  · exact ⟨t.foldl min x, rfl⟩

lemma optSeq_length : ∀ (l : List (Option ℚ)) (L : List ℚ),
    optSeq l = some L → L.length = l.length := by
  intro l
  induction l with
  | nil => intro L h; simp only [optSeq, Option.some.injEq] at h; subst h; rfl
  | cons o t ih =>
    intro L h
    rcases o with _ | a
    · simp [optSeq] at h
    · rcases ht : optSeq t with _ | L'
      · simp [optSeq, ht] at h
      · simp only [optSeq, ht, Option.pure_def, Option.bind_eq_bind,
          Option.some_bind, Option.some.injEq] at h
        subst h
        simp [ih L' ht]

lemma optSeq_forward : ∀ (l : List (Option ℚ)) (L : List ℚ),
    optSeq l = some L → ∀ o ∈ l, ∃ m, o = some m ∧ m ∈ L := by
  intro l
  induction l with
  | nil => intro L _ o ho; simp at ho
  | cons o' t ih =>
    intro L h o ho
    rcases o' with _ | a
    · simp [optSeq] at h
    · rcases ht : optSeq t with _ | L'
      · simp [optSeq, ht] at h
      · simp only [optSeq, ht, Option.pure_def, Option.bind_eq_bind,
          Option.some_bind, Option.some.injEq] at h
        subst h
        rcases List.mem_cons.mp ho with rfl | hmem
        · exact ⟨a, rfl, List.mem_cons_self _ _⟩
        · obtain ⟨m, hm, hmL⟩ := ih L' ht o hmem
          exact ⟨m, hm, List.mem_cons_of_mem _ hmL⟩

lemma optSeq_backward : ∀ (l : List (Option ℚ)) (L : List ℚ),
    optSeq l = some L → ∀ m ∈ L, some m ∈ l := by
  intro l
  induction l with
  | nil => intro L h m hm; simp only [optSeq, Option.some.injEq] at h; subst h; simp at hm
  | cons o' t ih =>
    intro L h m hm
    rcases o' with _ | a
    · simp [optSeq] at h
    · rcases ht : optSeq t with _ | L'
      · simp [optSeq, ht] at h
      · simp only [optSeq, ht, Option.pure_def, Option.bind_eq_bind,
          Option.some_bind, Option.some.injEq] at h
        subst h
        rcases List.mem_cons.mp hm with rfl | hmem
        · exact List.mem_cons_self _ _
        · exact List.mem_cons_of_mem _ (ih L' ht m hmem)

lemma optSeq_of_all_some : ∀ (l : List (Option ℚ)),
    (∀ o ∈ l, ∃ m, o = some m) →
      optSeq l = some (l.map (fun o => o.getD 0)) := by
  intro l
  induction l with
  | nil => intro _; rfl
  | cons o t ih =>
    intro h
    obtain ⟨m, hm⟩ := h o (List.mem_cons_self _ _)
    subst hm
    have ht := ih (fun o ho => h o (List.mem_cons_of_mem _ ho))
    simp [optSeq, ht]

lemma profile_length (vol : ℕ → ℕ → ℕ → ℚ) (depth i j : ℕ) :
    (profile vol depth i j).length = depth := by
  simp [profile]

lemma profile_ne_nil (vol : ℕ → ℕ → ℕ → ℚ) (depth i j : ℕ) (hd : 1 ≤ depth) :
    profile vol depth i j ≠ [] := by
  intro h
  have := profile_length vol depth i j
  rw [h] at this
  simp at this
  omega

lemma profile_getElem? (vol : ℕ → ℕ → ℕ → ℚ) (depth i j k : ℕ) (hk : k < depth) :
    (profile vol depth i j)[k]? = some (vol i j k) := by
  simp [profile, List.getElem?_map, List.getElem?_range, hk]

lemma mem_closedBlockIdx_self (n i j : ℕ) : (i, j) ∈ closedBlockIdx n i j := by
  unfold closedBlockIdx
  simp only [List.mem_flatMap, List.mem_map, List.mem_range, Prod.mk.injEq]
  exact ⟨i, ⟨n - (n - i), by omega, by omega⟩, j, ⟨n - (n - j), by omega, by omega⟩, rfl, rfl⟩

lemma closedBlockIdx_ne_nil (n i j : ℕ) : closedBlockIdx n i j ≠ [] :=
  List.ne_nil_of_mem (mem_closedBlockIdx_self n i j)

lemma findIdx?_spec (p : ℚ → Bool) :
    ∀ (l : List ℚ) (i k : ℕ), List.findIdx? p l i = some k →
      i ≤ k ∧ k - i < l.length ∧
        (∃ a, l[k - i]? = some a ∧ p a = true) ∧
        ∀ m, m < k - i → ∀ a, l[m]? = some a → p a = false := by
  intro l
  induction l with
  | nil => intro i k h; simp [List.findIdx?_nil] at h
  | cons x xs ih =>
    intro i k h
    rw [List.findIdx?_cons] at h
    by_cases hp : p x = true
    · rw [if_pos hp] at h
      have hik : k = i := (Option.some.inj h).symm
      subst hik
      refine ⟨le_refl _, by simp, ⟨x, ?_, hp⟩, ?_⟩
      · simp [Nat.sub_self]
      · intro m hm
        omega
    · rw [if_neg hp] at h
      obtain ⟨h1, h2, h3, h4⟩ := ih (i + 1) k h
      have hki : k - i = (k - (i + 1)) + 1 := by omega
      refine ⟨by omega, by simp only [List.length_cons]; omega, ?_, ?_⟩
      · obtain ⟨a, ha, hpa⟩ := h3
        refine ⟨a, ?_, hpa⟩
        rw [hki, List.getElem?_cons_succ]
        exact ha
      · intro m hm a ha
        cases m with
        | zero =>
          rw [List.getElem?_cons_zero] at ha
          have : x = a := Option.some.inj ha
          subst this
          simpa using hp
        | succ m' =>
          rw [List.getElem?_cons_succ] at ha
          exact h4 m' (by omega) a ha

lemma firstCrossing_spec (vol : ℕ → ℕ → ℕ → ℚ) (depth : ℕ) (thresh : ℚ)
    (i j k : ℕ) (h : firstCrossing vol depth thresh i j = some k) :
    k < depth ∧ thresh < vol i j k ∧ ∀ m, m < k → vol i j m ≤ thresh := by
  unfold firstCrossing at h
  obtain ⟨_, h2, h3, h4⟩ := findIdx?_spec _ _ 0 k h
  rw [Nat.sub_zero] at h2 h3 h4
  rw [profile_length] at h2
  refine ⟨h2, ?_, ?_⟩
  · obtain ⟨a, ha, hpa⟩ := h3
    rw [profile_getElem? vol depth i j k h2] at ha
    have : vol i j k = a := Option.some.inj ha
    rw [this]
    simpa using hpa
  · intro m hm
    have := h4 m hm (vol i j m) (profile_getElem? vol depth i j m (by omega))
    simpa using this

/-- The maxima condition underlying both `frag_mask` and the safety of
the first-crossing lookup: if the minimum of the neighborhood maxima
exceeds the threshold, then the center's own profile has an entry
exceeding the threshold and the lookup succeeds. -/
lemma fragCond_firstCrossing (vol : ℕ → ℕ → ℕ → ℚ) (depth n : ℕ) (thresh : ℚ)
    (i j : ℕ) (h : fragCond vol depth n thresh i j) :
    (∃ a ∈ profile vol depth i j, thresh < a) ∧
      ∃ k, firstCrossing vol depth thresh i j = some k := by
  obtain ⟨m, hm, ht⟩ := h
  unfold neighMin at hm
  rcases hseq : optSeq ((closedBlockIdx n i j).map
      (fun p => npMax1 (profile vol depth p.1 p.2))) with _ | ms
  · rw [hseq] at hm; simp at hm
  · rw [hseq] at hm
    simp only [Option.pure_def, Option.bind_eq_bind, Option.some_bind] at hm
    have hcenter : npMax1 (profile vol depth i j) ∈
        (closedBlockIdx n i j).map (fun p => npMax1 (profile vol depth p.1 p.2)) :=
      List.mem_map.mpr ⟨(i, j), mem_closedBlockIdx_self n i j, rfl⟩
    obtain ⟨m0, hm0eq, hm0mem⟩ := optSeq_forward _ ms hseq _ hcenter
    have hmin := (npMin1_eq_some_iff ms m).mp hm
    have hle : m ≤ m0 := hmin.2 m0 hm0mem
    have hmax := (npMax1_eq_some_iff _ m0).mp hm0eq
    have hlt : thresh < m0 := lt_of_lt_of_le ht hle
    refine ⟨⟨m0, hmax.1, hlt⟩, ?_⟩
    rcases hfc : firstCrossing vol depth thresh i j with _ | k
    · exfalso
      unfold firstCrossing at hfc
      have := List.findIdx?_eq_none_iff.mp hfc m0 hmax.1
      simp only [decide_eq_false_iff_not] at this
      exact this hlt
    · exact ⟨k, rfl⟩

/-- C10: whenever the fragment-mask condition holds at `(i, j)` — the
minimum over the closed neighborhood of the depth-axis maxima exceeds
the threshold — the point's own depth profile contains a value
exceeding the threshold, so the first-crossing lookup
`np.where(vector > thresh)[0][0]` is defined (no `IndexError`). -/
theorem first_crossing_defined_inside_fragment (vol : ℕ → ℕ → ℕ → ℚ)
    (depth n : ℕ) (thresh : ℚ) (i j : ℕ)
    (h : fragCond vol depth n thresh i j) :
    (∃ a ∈ profile vol depth i j, thresh < a) ∧
      ∃ k, firstCrossing vol depth thresh i j = some k :=
  fragCond_firstCrossing vol depth n thresh i j h

/-- A constant-intensity volume used to instantiate the surface
detection theorems. -/
def constVol10 : ℕ → ℕ → ℕ → ℚ := fun _ _ _ => 10

/-- Witness for C10 at a concrete in-fragment point. -/
theorem first_crossing_defined_inside_fragment_applied :
    fragCond constVol10 1 0 5 0 0 ∧
      ((∃ a ∈ profile constVol10 1 0 0, (5 : ℚ) < a) ∧
        ∃ k, firstCrossing constVol10 1 5 0 0 = some k) :=
  ⟨by decide, first_crossing_defined_inside_fragment constVol10 1 0 5 0 0 (by decide)⟩

lemma fragCond_iff_all (vol : ℕ → ℕ → ℕ → ℚ) (depth n : ℕ) (thresh : ℚ)
    (i j : ℕ) (hd : 1 ≤ depth) :
    fragCond vol depth n thresh i j ↔
      ∀ p ∈ closedBlockIdx n i j,
        thresh < (npMax1 (profile vol depth p.1 p.2)).getD 0 := by
  constructor
  · rintro ⟨m, hm, ht⟩ p hp
    unfold neighMin at hm
    rcases hseq : optSeq ((closedBlockIdx n i j).map
        (fun q => npMax1 (profile vol depth q.1 q.2))) with _ | ms
    · rw [hseq] at hm; simp at hm
    · rw [hseq] at hm
      simp only [Option.pure_def, Option.bind_eq_bind, Option.some_bind] at hm
      have hpmem : npMax1 (profile vol depth p.1 p.2) ∈
          (closedBlockIdx n i j).map (fun q => npMax1 (profile vol depth q.1 q.2)) :=
        List.mem_map.mpr ⟨p, hp, rfl⟩
      obtain ⟨m0, hm0eq, hm0mem⟩ := optSeq_forward _ ms hseq _ hpmem
      have hmin := (npMin1_eq_some_iff ms m).mp hm
      rw [hm0eq]
      exact lt_of_lt_of_le ht (hmin.2 m0 hm0mem)
  · intro hall
    have hsome : ∀ o ∈ (closedBlockIdx n i j).map
        (fun q => npMax1 (profile vol depth q.1 q.2)), ∃ m, o = some m := by
      intro o ho
      obtain ⟨q, _, rfl⟩ := List.mem_map.mp ho
      exact npMax1_isSome _ (profile_ne_nil vol depth q.1 q.2 hd)
    have hseq := optSeq_of_all_some _ hsome
    have hLne : ((closedBlockIdx n i j).map
        (fun q => npMax1 (profile vol depth q.1 q.2))).map (fun o => o.getD 0) ≠ [] := by
      simp only [ne_eq, List.map_eq_nil_iff]
      exact closedBlockIdx_ne_nil n i j
    obtain ⟨m, hm⟩ := npMin1_isSome _ hLne
    refine ⟨m, ?_, ?_⟩
    · unfold neighMin
      rw [hseq]
      simp only [Option.pure_def, Option.bind_eq_bind, Option.some_bind]
      exact hm
    · have hmem := (npMin1_eq_some_iff _ m).mp hm
      have h1 := hmem.1
      rw [List.map_map] at h1
      obtain ⟨q, hq, hqeq⟩ := List.mem_map.mp h1
      rw [← hqeq]
      simp only [Function.comp_apply]
      exact hall q hq

/-- C3 (amended): `find_frag_surf_at_thresh` sets the fragment mask to
1 exactly at the points of the truncated loop range
`range(n, rows-n-1) × range(n, cols-n-1)` (the last row and column
with a full `n`-margin are skipped) whose closed
`(2n+1)×(2n+1)` neighborhood has all depth-axis maxima exceeding the
threshold; at mask-1 points the surface map holds the first depth
index exceeding the threshold (first crossing, not argmax), and at
mask-0 points both outputs are zero. -/
theorem find_frag_surf_characterized (vol : ℕ → ℕ → ℕ → ℚ)
    (rows cols depth n : ℕ) (thresh : ℚ) (i j : ℕ) (hd : 1 ≤ depth) :
    (frag_mask vol rows cols depth n thresh i j =
      if inSurfLoop rows cols n i j ∧
          ∀ p ∈ closedBlockIdx n i j,
            thresh < (npMax1 (profile vol depth p.1 p.2)).getD 0
        then 1 else 0) ∧
      (frag_mask vol rows cols depth n thresh i j = 1 →
        surf_pts vol rows cols depth n thresh i j < depth ∧
          thresh < vol i j (surf_pts vol rows cols depth n thresh i j) ∧
          ∀ m, m < surf_pts vol rows cols depth n thresh i j →
            vol i j m ≤ thresh) ∧
      (frag_mask vol rows cols depth n thresh i j = 0 →
        surf_pts vol rows cols depth n thresh i j = 0) := by
  refine ⟨?_, ?_, ?_⟩
  · unfold frag_mask
    exact if_congr (and_congr_right fun _ =>
      fragCond_iff_all vol depth n thresh i j hd) rfl rfl
  · intro hmask
    unfold frag_mask at hmask
    by_cases hc : inSurfLoop rows cols n i j ∧ fragCond vol depth n thresh i j
    · obtain ⟨-, hk⟩ := fragCond_firstCrossing vol depth n thresh i j hc.2
      obtain ⟨k, hk⟩ := hk
      have hsurf : surf_pts vol rows cols depth n thresh i j = k := by
        unfold surf_pts
        rw [if_pos hc, hk]
        rfl
      rw [hsurf]
      exact firstCrossing_spec vol depth thresh i j k hk
    · rw [if_neg hc] at hmask
      exact absurd hmask (by norm_num)
  · intro hmask
    unfold frag_mask at hmask
    unfold surf_pts
    by_cases hc : inSurfLoop rows cols n i j ∧ fragCond vol depth n thresh i j
    · rw [if_pos hc] at hmask
      exact absurd hmask (by norm_num)
    · rw [if_neg hc]

/-- C3 counterexample: in a 9×9×1 volume of constant intensity 10 with
`fragment_buffer = 4` and threshold 5, the point `(4, 4)` has a full
4-margin on all sides and its whole closed neighborhood's depth maxima
exceed the threshold, yet the fragment mask is 0 there: the loop
`range(n, shape-n-1)` is empty, skipping every fully-margined point of
this volume. -/
theorem find_frag_surf_skips_last_margin_point :
    frag_mask constVol10 9 9 1 4 5 4 4 = 0 ∧
      (4 ≤ 4 ∧ 4 + 4 < 9 ∧ 4 ≤ 4 ∧ 4 + 4 < 9) ∧
      ∀ p ∈ closedBlockIdx 4 4 4,
        (5 : ℚ) < (npMax1 (profile constVol10 1 p.1 p.2)).getD 0 := by
  refine ⟨?_, by omega, by decide⟩
  decide

/-- Witness for C3's amended theorem at the concrete 9×9×1 constant
volume: the characterization instantiated at point `(4, 4)`. -/
theorem find_frag_surf_characterized_applied :
    1 ≤ 1 ∧
      ((frag_mask constVol10 9 9 1 4 5 4 4 =
        if inSurfLoop 9 9 4 4 4 ∧
            ∀ p ∈ closedBlockIdx 4 4 4,
              (5 : ℚ) < (npMax1 (profile constVol10 1 p.1 p.2)).getD 0
          then 1 else 0) ∧
        (frag_mask constVol10 9 9 1 4 5 4 4 = 1 →
          surf_pts constVol10 9 9 1 4 5 4 4 < 1 ∧
            (5 : ℚ) < constVol10 4 4 (surf_pts constVol10 9 9 1 4 5 4 4) ∧
            ∀ m, m < surf_pts constVol10 9 9 1 4 5 4 4 →
              constVol10 4 4 m ≤ 5) ∧
        (frag_mask constVol10 9 9 1 4 5 4 4 = 0 →
          surf_pts constVol10 9 9 1 4 5 4 4 = 0)) :=
  ⟨le_refl 1, find_frag_surf_characterized constVol10 9 9 1 4 5 4 4 (le_refl 1)⟩

/-! ## C7: ground-truth adjustment -/

lemma mem_blockIdx_corner (NR i j : ℕ) (h : 1 ≤ NR) :
    (i - NR, j - NR) ∈ blockIdx NR i j := by
  unfold blockIdx
  simp only [List.mem_flatMap, List.mem_map, List.mem_range, Prod.mk.injEq]
  exact ⟨i - NR, ⟨0, by omega, by omega⟩, j - NR, ⟨0, by omega, by omega⟩, rfl, rfl⟩

lemma blockIdx_ne_nil (NR i j : ℕ) (h : 1 ≤ NR) : blockIdx NR i j ≠ [] :=
  List.ne_nil_of_mem (mem_blockIdx_corner NR i j h)

lemma listSum01_le : ∀ l : List ℚ, (∀ x ∈ l, x = 0 ∨ x = 1) →
    l.sum ≤ (l.length : ℚ) := by
  intro l
  induction l with
  | nil => intro _; simp
  | cons x t ih =>
    intro h
    have hx := h x (List.mem_cons_self _ _)
    have ht := ih (fun y hy => h y (List.mem_cons_of_mem _ hy))
    simp only [List.sum_cons, List.length_cons]
    push_cast
    rcases hx with rfl | rfl <;> linarith

lemma listSum01_eq_iff : ∀ l : List ℚ, (∀ x ∈ l, x = 0 ∨ x = 1) →
    (l.sum = (l.length : ℚ) ↔ ∀ x ∈ l, x = 1) := by
  intro l
  induction l with
  | nil => intro _; simp
  | cons x t ih =>
    intro h
    have hx := h x (List.mem_cons_self _ _)
    have h01 := fun y hy => h y (List.mem_cons_of_mem x hy)
    have hle := listSum01_le t h01
    have ht := ih h01
    simp only [List.sum_cons, List.length_cons, List.mem_cons]
    push_cast
    constructor
    · intro hsum
      rcases hx with rfl | rfl
      · linarith
      · have : t.sum = (t.length : ℚ) := by linarith
        intro y hy
        rcases hy with rfl | hy
        · rfl
        · exact ht.mp this y hy
    · intro hall
      have hx1 : x = 1 := hall x (Or.inl rfl)
      have : t.sum = (t.length : ℚ) := ht.mpr (fun y hy => hall y (Or.inr hy))
      rw [hx1, this]
      ring

/-- C7 (amended): the adjusted ground truth equals 0.99 at exactly the
loop points (full symmetric margin) whose HALF-OPEN 2NR×2NR block
`raw[i-NR:i+NR, j-NR:j+NR]` — which excludes the row `i+NR` and the
column `j+NR` of the radius-NR neighborhood — is uniformly
ink-positive; it is 0 everywhere else. -/
theorem ground_truth_halfopen_block (raw : ℕ → ℕ → ℚ) (rows cols NR i j : ℕ)
    (hNR : 1 ≤ NR) :
    ground_truth_adjusted raw rows cols NR i j =
      if (NR ≤ i ∧ i < rows - NR ∧ NR ≤ j ∧ j < cols - NR) ∧
          ∀ p ∈ blockIdx NR i j, 0 < raw p.1 p.2
        then 99 / 100 else 0 := by
  by_cases hR : NR ≤ i ∧ i < rows - NR ∧ NR ≤ j ∧ j < cols - NR
  · have hne : (blockIdx NR i j).map (fun p => binarize raw p.1 p.2) ≠ [] := by
      simp only [ne_eq, List.map_eq_nil_iff]
      exact blockIdx_ne_nil NR i j hNR
    have h01 : ∀ x ∈ (blockIdx NR i j).map (fun p => binarize raw p.1 p.2),
        x = 0 ∨ x = 1 := by
      intro x hx
      obtain ⟨p, _, rfl⟩ := List.mem_map.mp hx
      unfold binarize
      split_ifs
      · exact Or.inr rfl
      · exact Or.inl rfl
    have hlen : (0 : ℚ) <
        ((blockIdx NR i j).map (fun p => binarize raw p.1 p.2)).length := by
      have := List.length_pos.mpr hne
      exact_mod_cast this
    have hmean : npMean ((blockIdx NR i j).map (fun p => binarize raw p.1 p.2)) =
        some (((blockIdx NR i j).map (fun p => binarize raw p.1 p.2)).sum /
          (((blockIdx NR i j).map (fun p => binarize raw p.1 p.2)).length : ℚ)) := by
      unfold npMean
      rw [if_neg]
      intro hc
      rw [hc] at hlen
      simp at hlen
    have hiff : (((blockIdx NR i j).map (fun p => binarize raw p.1 p.2)).sum /
          (((blockIdx NR i j).map (fun p => binarize raw p.1 p.2)).length : ℚ) = 1) ↔
        ∀ p ∈ blockIdx NR i j, 0 < raw p.1 p.2 := by
      rw [div_eq_one_iff_eq (ne_of_gt hlen)]
      rw [listSum01_eq_iff _ h01]
      constructor
      · intro hall p hp
        have := hall (binarize raw p.1 p.2) (List.mem_map.mpr ⟨p, hp, rfl⟩)
        unfold binarize at this
        by_contra hneg
        rw [if_neg hneg] at this
        norm_num at this
      · intro hall x hx
        obtain ⟨p, hp, rfl⟩ := List.mem_map.mp hx
        unfold binarize
        rw [if_pos (hall p hp)]
    unfold ground_truth_adjusted
    rw [if_pos hR, hmean]
    show (if ((blockIdx NR i j).map (fun p => binarize raw p.1 p.2)).sum /
        (((blockIdx NR i j).map (fun p => binarize raw p.1 p.2)).length : ℚ) = 1
      then (99 / 100 : ℚ) else 0) = _
    by_cases hall : ∀ p ∈ blockIdx NR i j, 0 < raw p.1 p.2
    · rw [if_pos (hiff.mpr hall), if_pos ⟨hR, hall⟩]
    · rw [if_neg (fun hc => hall (hiff.mp hc)), if_neg (fun hc => hall hc.2)]
  · unfold ground_truth_adjusted
    rw [if_neg hR, if_neg (fun hc => hR hc.1)]

/-- A 3×3 raw annotation that is ink everywhere except at `(2, 2)`. -/
def rawAnn3 : ℕ → ℕ → ℚ := fun i j => if i = 2 ∧ j = 2 then 0 else 1

/-- C7 counterexample: with `NR = 1` on a 3×3 annotation whose corner
`(2, 2)` is not ink, the point `(1, 1)` is labeled 0.99 even though
its radius-1 neighborhood (which contains `(2, 2)`) is not uniformly
ink-positive: the code's half-open 2×2 block misses the upper edge of
the neighborhood. -/
theorem ground_truth_ignores_upper_edge :
    ground_truth_adjusted rawAnn3 3 3 1 1 1 = 99 / 100 ∧
      ¬(∀ p ∈ closedBlockIdx 1 1 1, 0 < rawAnn3 p.1 p.2) ∧
      rawAnn3 2 2 = 0 := by
  refine ⟨?_, by decide, by decide⟩
  have hR : (1 ≤ 1 ∧ 1 < 3 - 1 ∧ 1 ≤ 1 ∧ 1 < 3 - 1) := by omega
  have hmap : (blockIdx 1 1 1).map (fun p => binarize rawAnn3 p.1 p.2)
      = [1, 1, 1, 1] := by decide
  have hmean : npMean ([1, 1, 1, 1] : List ℚ) = some 1 := by
    unfold npMean
    norm_num
  unfold ground_truth_adjusted
  rw [if_pos hR, hmap, hmean]
  show (if (1 : ℚ) = 1 then (99 / 100 : ℚ) else 0) = 99 / 100
  rw [if_pos rfl]

/-- Witness for C7's amended theorem at the concrete 3×3 annotation. -/
theorem ground_truth_halfopen_block_applied :
    1 ≤ 1 ∧
      ground_truth_adjusted rawAnn3 3 3 1 1 1 =
        if (1 ≤ 1 ∧ 1 < 3 - 1 ∧ 1 ≤ 1 ∧ 1 < 3 - 1) ∧
            ∀ p ∈ blockIdx 1 1 1, 0 < rawAnn3 p.1 p.2
          then 99 / 100 else 0 :=
  ⟨le_refl 1, ground_truth_halfopen_block rawAnn3 3 3 1 1 1 (le_refl 1)⟩

/-! ## C4 / C9: `next_batch` -/

/-- C4 (amended): `next_batch` never fails when the index pools
address valid rows; the cursor wraps to 0 and the pool is reshuffled
exactly when `current_spot + batch_size` exceeds `total_vects`
(`rows * cols`) — NOT when it exceeds the size of the active index
pool `train_inds`; past the pool's end the drawn slice is silently
short or empty. -/
theorem next_batch_wrap_on_total_vects (tv : TrainVol) (batch_size : ℕ)
    (shuffled : List ℕ) (flip : ℕ → Bool)
    (hpool : ∀ ind ∈ tv.train_inds, ind < tv.total_vects)
    (hshuf : ∀ ind ∈ shuffled, ind < tv.total_vects) :
    ∃ r, tv.next_batch batch_size shuffled flip = some r ∧
      (r.wrapped = true ↔ tv.total_vects < tv.current_spot + batch_size) ∧
      (tv.wraps batch_size → r.pool = shuffled ∧ r.newSpot = batch_size) ∧
      (¬tv.wraps batch_size → r.pool = tv.train_inds ∧
        r.newSpot = tv.current_spot + batch_size) := by
  have hall : ((tv.drawnInds batch_size shuffled).all
      (fun ind => decide (ind / tv.cols < tv.rows))) = true := by
    rw [List.all_eq_true]
    intro ind hmem
    have hsub : ind ∈ (if tv.wraps batch_size then shuffled else tv.train_inds) := by
      unfold TrainVol.drawnInds at hmem
      exact List.mem_of_mem_drop (List.mem_of_mem_take hmem)
    have hlt : ind < tv.total_vects := by
      by_cases hw : tv.wraps batch_size
      · rw [if_pos hw] at hsub
        exact hshuf ind hsub
      · rw [if_neg hw] at hsub
        exact hpool ind hsub
    simp only [decide_eq_true_eq]
    exact Nat.div_lt_of_lt_mul (by rw [Nat.mul_comm]; exact hlt)
  refine ⟨{ newSpot := (if tv.wraps batch_size then 0 else tv.current_spot) + batch_size
            pool := if tv.wraps batch_size then shuffled else tv.train_inds
            wrapped := decide (tv.wraps batch_size)
            x := tv.batchX (tv.drawnInds batch_size shuffled) flip
            y := tv.batchY (tv.drawnInds batch_size shuffled) }, ?_, ?_, ?_, ?_⟩
  · unfold TrainVol.next_batch
    rw [if_pos hall]
  · simp only [decide_eq_true_eq]
    unfold TrainVol.wraps
    exact Iff.rfl
  · intro hw
    constructor
    · simp only [if_pos hw]
    · simp only [if_pos hw, Nat.zero_add]
  · intro hw
    constructor
    · simp only [if_neg hw]
    · simp only [if_neg hw]

/-- A pool of 2 indices in a 3×4 grid with the cursor already past the
pool's end. -/
def tvPool2 : TrainVol :=
  { rows := 3, cols := 4, depth := 1, NR := 1, C_IN := 1, C_BACK := 0
    flt_volume := fun _ _ _ => 0, ground_truth := fun _ _ => 0
    surfMap := fun _ _ => 0, train_inds := [0, 1], current_spot := 3 }

/-- C4 counterexample: with a pool of size 2, cursor 3 and batch size
3 the cursor would exceed the pool size (3 + 3 > 2), yet `next_batch`
neither wraps nor reshuffles (3 + 3 ≤ total_vects = 12): the cursor
advances to 6 and the pool is unchanged. -/
theorem next_batch_no_wrap_at_pool_end :
    (tvPool2.next_batch 3 [1, 0] (fun _ => false)).map
        (fun r => (r.wrapped, r.newSpot, r.pool)) = some (false, 6, [0, 1]) ∧
      tvPool2.train_inds.length < tvPool2.current_spot + 3 := by
  constructor
  · decide
  · decide

/-- Witness TrainVol for the C4 amended theorem. -/
def tvSmall : TrainVol :=
  { rows := 1, cols := 2, depth := 1, NR := 0, C_IN := 0, C_BACK := 0
    flt_volume := fun _ _ _ => 0, ground_truth := fun _ _ => 0
    surfMap := fun _ _ => 0, train_inds := [0, 1], current_spot := 0 }

/-- Witness for C4's amended theorem at a concrete pool. -/
theorem next_batch_wrap_on_total_vects_applied :
    ((∀ ind ∈ tvSmall.train_inds, ind < tvSmall.total_vects) ∧
        ∀ ind ∈ [1, 0], ind < tvSmall.total_vects) ∧
      ∃ r, tvSmall.next_batch 1 [1, 0] (fun _ => false) = some r ∧
        (r.wrapped = true ↔ tvSmall.total_vects < tvSmall.current_spot + 1) ∧
        (tvSmall.wraps 1 → r.pool = [1, 0] ∧ r.newSpot = 1) ∧
        (¬tvSmall.wraps 1 → r.pool = tvSmall.train_inds ∧
          r.newSpot = tvSmall.current_spot + 1) :=
  ⟨⟨by decide, by decide⟩,
    next_batch_wrap_on_total_vects tvSmall 1 [1, 0] (fun _ => false)
      (by decide) (by decide)⟩

/-- C9: every label row of a batch is either `(g, 1-g)` — summing to
1 — for the adjusted ground truth `g` at that row's drawn index (when
the crop shape matches), or the pre-zeroed `(0, 0)` — summing to 0,
so not one-hot — when the row has no drawn index or the crop shape
mismatches. -/
theorem batch_labels_dichotomy (tv : TrainVol) (batch_size : ℕ)
    (shuffled : List ℕ) (flip : ℕ → Bool) (r : BatchResult) (c : ℕ)
    (h : tv.next_batch batch_size shuffled flip = some r) :
    (∃ ind, (tv.drawnInds batch_size shuffled)[c]? = some ind ∧
        tv.shapeMatch ind ∧
        r.y c = (tv.ground_truth (tv.ind_to_coord ind).1 (tv.ind_to_coord ind).2,
          1 - tv.ground_truth (tv.ind_to_coord ind).1 (tv.ind_to_coord ind).2) ∧
        (r.y c).1 + (r.y c).2 = 1) ∨
      (r.y c = (0, 0) ∧ (r.y c).1 + (r.y c).2 = 0 ∧
        ((tv.drawnInds batch_size shuffled)[c]? = none ∨
          ∃ ind, (tv.drawnInds batch_size shuffled)[c]? = some ind ∧
            ¬tv.shapeMatch ind)) := by
  have hy : r.y = tv.batchY (tv.drawnInds batch_size shuffled) := by
    unfold TrainVol.next_batch at h
    by_cases hall : ((tv.drawnInds batch_size shuffled).all
        (fun ind => decide (ind / tv.cols < tv.rows))) = true
    · rw [if_pos hall] at h
      cases Option.some.inj h
      rfl
    · rw [if_neg hall] at h
      exact absurd h (by simp)
  rw [hy]
  unfold TrainVol.batchY
  rcases hc : (tv.drawnInds batch_size shuffled)[c]? with _ | ind
  · simp only [hc]
    refine Or.inr ⟨?_, ?_, Or.inl ?_⟩ <;> first | trivial | norm_num
  · simp only [hc]
    by_cases hs : tv.shapeMatch ind
    · refine Or.inl ⟨ind, rfl, hs, ?_, ?_⟩
      · rw [if_pos hs]
      · rw [if_pos hs]
        ring
    · refine Or.inr ⟨?_, ?_, Or.inr ⟨ind, rfl, hs⟩⟩
      · rw [if_neg hs]
      · rw [if_neg hs]
        norm_num

/-- Witness TrainVol for C9: one drawn index whose crop shape
matches. -/
def tvLabel : TrainVol :=
  { rows := 1, cols := 3, depth := 2, NR := 1, C_IN := 1, C_BACK := 1
    flt_volume := fun _ _ _ => 0
    ground_truth := fun _ j => if j = 1 then 99 / 100 else 0
    surfMap := fun _ _ => 1, train_inds := [1], current_spot := 0 }

/-- Witness for C9 at a concrete batch. -/
theorem batch_labels_dichotomy_applied :
    ∃ r, tvLabel.next_batch 1 [] (fun _ => false) = some r ∧
      ((∃ ind, (tvLabel.drawnInds 1 [])[0]? = some ind ∧
          tvLabel.shapeMatch ind ∧
          r.y 0 = (tvLabel.ground_truth (tvLabel.ind_to_coord ind).1
              (tvLabel.ind_to_coord ind).2,
            1 - tvLabel.ground_truth (tvLabel.ind_to_coord ind).1
              (tvLabel.ind_to_coord ind).2) ∧
          (r.y 0).1 + (r.y 0).2 = 1) ∨
        (r.y 0 = (0, 0) ∧ (r.y 0).1 + (r.y 0).2 = 0 ∧
          ((tvLabel.drawnInds 1 [])[0]? = none ∨
            ∃ ind, (tvLabel.drawnInds 1 [])[0]? = some ind ∧
              ¬tvLabel.shapeMatch ind))) :=
  ⟨_, rfl, batch_labels_dichotomy tvLabel 1 [] (fun _ => false) _ 0 rfl⟩

/-! ## C5 / C6: feature extraction -/

lemma windowAt_ne_nil (vol : ℕ → ℕ → ℕ → ℚ) (depth : ℕ)
    (surfp : ℕ → ℕ → ℕ) (CB CI i j : ℕ) (hci : 1 ≤ CI)
    (hs : windowStart (surfp i j) CB < depth) :
    windowAt vol depth surfp CB CI i j ≠ [] := by
  have hlen : (windowAt vol depth surfp CB CI i j).length =
      min CI (depth - windowStart (surfp i j) CB) := by
    unfold windowAt
    rw [List.length_take, List.length_drop, profile_length]
  intro hnil
  rw [hnil] at hlen
  simp only [List.length_nil] at hlen
  omega

/-- C6 (amended): when `CUT_IN ≥ 1` and every clamped window start
lies inside the depth axis — i.e. every depth window is nonempty —
the single-point statistics phase of `extract_for_vol` completes
without raising and with finite values in every channel.  (For an
empty window the phase raises: `np.min`/`np.max` fail on an empty
array, and the mean channel — the one channel NOT passed through
`np.nan_to_num` — would feed NaN into `preprocessing.normalize`.) -/
theorem extract_single_no_raise_on_nonempty_windows (vol : ℕ → ℕ → ℕ → ℚ)
    (rows cols depth : ℕ) (surfp : ℕ → ℕ → ℕ) (CUT_IN CUT_BACK : ℕ)
    (thresh : ℚ) (hci : 1 ≤ CUT_IN)
    (hsurf : ∀ i, i < rows → ∀ j, j < cols →
      windowStart (surfp i j) CUT_BACK < depth) :
    ∃ singles,
      extractSingle vol rows cols depth surfp CUT_IN CUT_BACK thresh
          = some singles ∧
        singles.length = 6 := by
  have hcond : ∀ i ∈ List.range rows, ∀ j ∈ List.range cols,
      windowAt vol depth surfp CUT_BACK CUT_IN i j ≠ [] := by
    intro i hi j hj
    exact windowAt_ne_nil vol depth surfp CUT_BACK CUT_IN i j hci
      (hsurf i (List.mem_range.mp hi) j (List.mem_range.mp hj))
  unfold extractSingle
  rw [if_pos hcond]
  exact ⟨_, rfl, rfl⟩

/-- Witness for C6's amended theorem on a 1×1×1 volume. -/
theorem extract_single_no_raise_applied :
    (1 ≤ 1 ∧ ∀ i, i < 1 → ∀ j, j < 1 →
        windowStart ((fun _ _ => 0) i j) 0 < 1) ∧
      ∃ singles,
        extractSingle (fun _ _ _ => (3 : ℚ)) 1 1 1 (fun _ _ => 0) 1 0 0
            = some singles ∧
          singles.length = 6 :=
  ⟨⟨le_refl 1, fun i _ j _ => by norm_num [windowStart]⟩,
    extract_single_no_raise_on_nonempty_windows (fun _ _ _ => (3 : ℚ)) 1 1 1
      (fun _ _ => 0) 1 0 0 (le_refl 1) (fun i _ j _ => by norm_num [windowStart])⟩

/-- C6 counterexample: with `CUT_IN = 0` every depth window is empty
and the computation raises (`np.min` of an empty array) instead of
coercing to zero: the statistics phase produces no result, and no
feature image satisfies the extraction relation. -/
theorem extract_single_raises_on_empty_window :
    extractSingle (fun _ _ _ => (0 : ℚ)) 1 1 1 (fun _ _ => 0) 0 0 0 = none ∧
      windowAt (fun _ _ _ => (0 : ℚ)) 1 (fun _ _ => 0) 0 0 0 0 = [] ∧
      ¬∃ out, ExtractForVolRel (fun _ _ _ => (0 : ℚ)) 1 1 1 (fun _ _ => 0)
        0 0 0 0 out := by
  refine ⟨by decide, by decide, ?_⟩
  rintro ⟨out, singles, hs, -, -⟩
  rw [show extractSingle (fun _ _ _ => (0 : ℚ)) 1 1 1 (fun _ _ => 0) 0 0 0
      = none from by decide] at hs
  exact Option.noConfusion hs

lemma sumSq_map_mul (r : List ℚ) (c : ℚ) :
    sumSq (r.map (fun a => a * c)) = c * c * sumSq r := by
  induction r with
  | nil => simp [sumSq]
  | cons x t ih =>
    simp only [List.map_cons, sumSq, List.sum_cons] at *
    rw [ih]
    ring

lemma rowNormRel_sumSq (r r' : List ℚ) (h : rowNormRel r r') :
    sumSq r' = 1 ∨ sumSq r' = 0 := by
  rcases h with ⟨h0, rfl⟩ | ⟨-, c, -, hc1, rfl⟩
  · exact Or.inr h0
  · exact Or.inl (by rw [sumSq_map_mul]; exact hc1)

lemma extractSingle_length (vol : ℕ → ℕ → ℕ → ℚ) (rows cols depth : ℕ)
    (surfp : ℕ → ℕ → ℕ) (CUT_IN CUT_BACK : ℕ) (thresh : ℚ)
    (singles : List (List (List ℚ)))
    (h : extractSingle vol rows cols depth surfp CUT_IN CUT_BACK thresh
      = some singles) : singles.length = 6 := by
  unfold extractSingle at h
  by_cases hc : ∀ i ∈ List.range rows, ∀ j ∈ List.range cols,
      windowAt vol depth surfp CUT_BACK CUT_IN i j ≠ []
  · rw [if_pos hc] at h
    cases Option.some.inj h
    rfl
  · rw [if_neg hc] at h
    exact Option.noConfusion h

lemma extractNeigh_length (vol : ℕ → ℕ → ℕ → ℚ) (rows cols depth : ℕ)
    (surfp : ℕ → ℕ → ℕ) (CUT_IN CUT_BACK NR : ℕ) (thresh : ℚ) :
    (extractNeigh vol rows cols depth surfp CUT_IN CUT_BACK NR thresh).length
      = 4 := rfl

lemma zip_getElem_mem {α β : Type} (l1 : List α) (l2 : List β) (i : ℕ)
    (h1 : i < l1.length) (h2 : i < l2.length) :
    (l1[i], l2[i]) ∈ l1.zip l2 := by
  have hz : i < (l1.zip l2).length := by
    rw [List.length_zip]
    omega
  have hg := @List.getElem_zip _ _ l1 l2 i hz
  rw [← hg]
  exact List.getElem_mem hz

/-- C5 (amended): sklearn's `preprocessing.normalize` is applied with
its default `axis=1`, so every ROW of every channel of the feature
image is independently L2-unit-normalized (rows that are identically
zero stay zero): each row's sum of squares is 1 or 0 — the sum of
squares over a whole flattened channel is the number of nonzero rows,
not 1. -/
theorem extract_channels_row_normalized (vol : ℕ → ℕ → ℕ → ℚ)
    (rows cols depth : ℕ) (surfp : ℕ → ℕ → ℕ) (CUT_IN CUT_BACK NR : ℕ)
    (thresh : ℚ) (out : List (List (List ℚ)))
    (h : ExtractForVolRel vol rows cols depth surfp CUT_IN CUT_BACK NR thresh out) :
    ∀ M ∈ out, ∀ row ∈ M, sumSq row = 1 ∨ sumSq row = 0 := by
  obtain ⟨singles, hs, hlen, hnorm⟩ := h
  intro M hM row hrow
  obtain ⟨idx, hidx, rfl⟩ := List.mem_iff_getElem.mp hM
  have hleft : (singles ++ extractNeigh vol rows cols depth surfp CUT_IN CUT_BACK
      NR thresh).length = 10 := by
    rw [List.length_append, extractSingle_length vol rows cols depth surfp
      CUT_IN CUT_BACK thresh singles hs, extractNeigh_length]
  have hidx' : idx < (singles ++ extractNeigh vol rows cols depth surfp CUT_IN
      CUT_BACK NR thresh).length := by omega
  have hpair := zip_getElem_mem _ out idx hidx' hidx
  have hrel := hnorm _ hpair
  have hlen2 : out[idx].length = ((singles ++ extractNeigh vol rows cols depth
      surfp CUT_IN CUT_BACK NR thresh)[idx]).length := hrel.1
  have hrows := hrel.2
  obtain ⟨ridx, hridx, rfl⟩ := List.mem_iff_getElem.mp hrow
  have hridx' : ridx < ((singles ++ extractNeigh vol rows cols depth surfp CUT_IN
      CUT_BACK NR thresh)[idx]).length := by omega
  have hpm := zip_getElem_mem _ _ ridx hridx' hridx
  exact rowNormRel_sumSq _ _ (hrows _ hpm)

/-- A 2×2×1 volume whose depth windows are `[3]` in column 0 and `[4]`
in column 1. -/
def rampVol : ℕ → ℕ → ℕ → ℚ := fun _ j _ => if j = 0 then 3 else 4

/-- C5 counterexample: on `rampVol` the sum channel of the statistics
phase is `[[3, 4], [3, 4]]`; sklearn's row-wise normalization maps it
to `[[3/5, 4/5], [3/5, 4/5]]`, whose sum of squares over the whole
flattened channel is 2, not 1 — the channel is not normalized as one
flattened vector. -/
theorem extract_channel_total_sumsq_two :
    extractSingle rampVol 2 2 1 (fun _ _ => 0) 1 0 0 =
        some [[[3, 4], [3, 4]], [[1, 1], [1, 1]], [[3, 4], [3, 4]],
          [[3, 4], [3, 4]], [[3, 4], [3, 4]], [[0, 0], [0, 0]]] ∧
      npNormalizeRel [[3, 4], [3, 4]] [[3 / 5, 4 / 5], [3 / 5, 4 / 5]] ∧
      totalSumSq [[3 / 5, 4 / 5], [3 / 5, 4 / 5]] = 2 ∧ ((2 : ℚ) ≠ 1) := by
  refine ⟨?_, ?_, ?_, by norm_num⟩
  · unfold extractSingle
    rw [if_pos (by decide)]
    simp only [show List.range 2 = [0, 1] from rfl,
      show List.range 1 = [0] from rfl, List.map_cons, List.map_nil]
    norm_num [windowAt, windowStart, profile, depthCount, npMean, npMin1, npMax1,
      npVar, rampVol, List.min?, List.max?, List.foldl, List.filter,
      List.take, List.drop, show List.range 1 = [0] from rfl,
      List.sum_cons, List.sum_nil, Option.bind_eq_bind, Option.some_bind]
  · refine ⟨rfl, ?_⟩
    intro p hp
    have hp' : p ∈ ([([3, 4], [3 / 5, 4 / 5]), ([3, 4], [3 / 5, 4 / 5])] :
        List (List ℚ × List ℚ)) := hp
    have hrow : rowNormRel [(3 : ℚ), 4] [3 / 5, 4 / 5] := by
      refine Or.inr ⟨by norm_num [sumSq], 1 / 5, by norm_num, ?_, ?_⟩
      · norm_num [sumSq]
      · norm_num
    rcases List.mem_cons.mp hp' with rfl | hp2
    · exact hrow
    · rcases List.mem_cons.mp hp2 with rfl | hp3
      · exact hrow
      · simp at hp3
  · norm_num [totalSumSq, sumSq]

/-- A 1×1×1 volume of constant intensity 3 for the C5 witness. -/
def constVol3 : ℕ → ℕ → ℕ → ℚ := fun _ _ _ => 3

/-- The normalized 10-channel output on `constVol3`. -/
def constVol3Out : List (List (List ℚ)) :=
  [[[1]], [[1]], [[1]], [[1]], [[1]], [[0]], [[1]], [[1]], [[0]], [[0]]]

lemma npNormalizeRel_singleton3 : npNormalizeRel [[(3 : ℚ)]] [[1]] := by
  refine ⟨rfl, ?_⟩
  intro p hp
  have hp' : p ∈ ([([3], [1])] : List (List ℚ × List ℚ)) := hp
  rcases List.mem_cons.mp hp' with rfl | hp2
  · refine Or.inr ⟨by norm_num [sumSq], 1 / 3, by norm_num, ?_, ?_⟩
    · norm_num [sumSq]
    · norm_num
  · simp at hp2

lemma npNormalizeRel_singleton0 : npNormalizeRel [[(0 : ℚ)]] [[0]] := by
  refine ⟨rfl, ?_⟩
  intro p hp
  have hp' : p ∈ ([([0], [0])] : List (List ℚ × List ℚ)) := hp
  rcases List.mem_cons.mp hp' with rfl | hp2
  · exact Or.inl ⟨by norm_num [sumSq], rfl⟩
  · simp at hp2

lemma constVol3_extractSingle :
    extractSingle constVol3 1 1 1 (fun _ _ => 0) 1 0 0 =
      some [[[3]], [[1]], [[3]], [[3]], [[3]], [[0]]] := by
  unfold extractSingle
  rw [if_pos (by decide)]
  simp only [show List.range 1 = [0] from rfl, List.map_cons, List.map_nil]
  norm_num [windowAt, windowStart, profile, depthCount, npMean, npMin1, npMax1,
    npVar, constVol3, List.min?, List.max?, List.foldl, List.filter,
    List.take, List.drop, show List.range 1 = [0] from rfl,
    List.sum_cons, List.sum_nil, Option.bind_eq_bind, Option.some_bind]

lemma constVol3_extractNeigh :
    extractNeigh constVol3 1 1 1 (fun _ _ => 0) 1 0 0 0 =
      [[[3]], [[3]], [[0]], [[0]]] := by
  unfold extractNeigh
  simp only [show List.range 1 = [0] from rfl, List.map_cons, List.map_nil]
  norm_num [neighBlock, closedBlockIdx, windowStart, profile, npMean, npVar,
    constVol3, List.filter, List.sum_cons, List.sum_nil,
    Option.bind_eq_bind, Option.some_bind,
    show List.range 1 = [0] from rfl, List.flatMap_cons, List.flatMap_nil,
    List.map_cons, List.map_nil, List.take, List.drop, Function.comp]

lemma constVol3_rel :
    ExtractForVolRel constVol3 1 1 1 (fun _ _ => 0) 1 0 0 0 constVol3Out := by
  refine ⟨[[[3]], [[1]], [[3]], [[3]], [[3]], [[0]]], constVol3_extractSingle,
    rfl, ?_⟩
  rw [constVol3_extractNeigh]
  intro p hp
  have hp' : p ∈ ([([[3]], [[1]]), ([[1]], [[1]]), ([[3]], [[1]]), ([[3]], [[1]]),
      ([[3]], [[1]]), ([[0]], [[0]]), ([[3]], [[1]]), ([[3]], [[1]]),
      ([[0]], [[0]]), ([[0]], [[0]])] :
        List (List (List ℚ) × List (List ℚ))) := hp
  have h11 : npNormalizeRel [[(1 : ℚ)]] [[1]] := by
    refine ⟨rfl, ?_⟩
    intro q hq
    have hq' : q ∈ ([([1], [1])] : List (List ℚ × List ℚ)) := hq
    rcases List.mem_cons.mp hq' with rfl | hq2
    · refine Or.inr ⟨by norm_num [sumSq], 1, by norm_num, ?_, ?_⟩
      · norm_num [sumSq]
      · norm_num
    · simp at hq2
  fin_cases hp' <;>
    first
      | exact npNormalizeRel_singleton3
      | exact npNormalizeRel_singleton0
      | exact h11

/-- Witness for C5's amended theorem: the relation instantiated on
`constVol3`, every row of every channel having sum of squares 1 or 0. -/
theorem extract_channels_row_normalized_applied :
    ExtractForVolRel constVol3 1 1 1 (fun _ _ => 0) 1 0 0 0 constVol3Out ∧
      ∀ M ∈ constVol3Out, ∀ row ∈ M, sumSq row = 1 ∨ sumSq row = 0 :=
  ⟨constVol3_rel,
    extract_channels_row_normalized constVol3 1 1 1 (fun _ _ => 0) 1 0 0 0
      constVol3Out constVol3_rel⟩

end InkId
